import Mathlib

/-!
Shallow embedding of `images/dnsmasq/validate_dynamic_deps.py` (kubernetes/dns).

The script validates that a binary's dynamically linked dependencies are
present inside an extracted container filesystem by walking ELF NEEDED
entries.  External subprocess calls (`file`, `objdump`, filesystem globbing,
`os.readlink`, `Path.resolve`) are modelled as explicit environment
functions; the pure logic of the script (output parsing, path manipulation,
the closure-walk loop, exit-code computation, cleanup) is translated
directly from the source.
-/

namespace ValidateDeps

/-- Model of a `pathlib.PurePosixPath`: whether the path is absolute
(`anchor = "/"`) plus the list of components (`parts` minus the anchor).
Components never contain `/`; `..` components are kept verbatim, exactly as
`pathlib` keeps them (no normalization). -/
structure PyPath where
  isAbs : Bool
  parts : List String
deriving DecidableEq, Repr

/-- `pathlib.PurePath.joinpath` for a single argument: an absolute argument
replaces the receiver, a relative one is appended. -/
def PyPath.joinpath (p q : PyPath) : PyPath :=
  if q.isAbs then q else ⟨p.isAbs, p.parts ++ q.parts⟩

/-- `relative_to_root` (validate_dynamic_deps.py:30-32):
`path.relative_to(path.anchor)` strips the anchor, keeping the components.
On a relative path the anchor is empty and the path is returned unchanged. -/
def relative_to_root (path : PyPath) : PyPath :=
  ⟨false, path.parts⟩

/-- `pathlib.PurePath.relative_to`: succeeds when `base`'s components lead
`p` (same anchor), returning the remaining relative path; otherwise raises
`ValueError`, modelled as `Except.error ()`. -/
def PyPath.relative_to (p base : PyPath) : Except Unit PyPath :=
  if p.isAbs = base.isAbs ∧ p.parts.take base.parts.length = base.parts then
    .ok ⟨false, p.parts.drop base.parts.length⟩
  else
    .error ()

/-- Filesystem environment for the symlink resolver: `readlink` models
`os.readlink` (the raw link target, a host-filesystem path string) and
`hostResolve` models `pathlib.Path.resolve()` (full host resolution of a
path: made absolute, `..` eliminated, symlinks followed on the host). -/
structure FsEnv where
  readlink : PyPath → PyPath
  hostResolve : PyPath → PyPath

/-- `resolve_container_link` (validate_dynamic_deps.py:95-102).
`str(resolved).startswith('/')` is the `isAbs` test on the readlink result.
The relative branch `link.resolve().relative_to(root_dir.resolve())` can
raise `ValueError`, hence the `Except`. -/
def resolve_container_link (fs : FsEnv) (root_dir link : PyPath) :
    Except Unit PyPath :=
  let resolved := fs.readlink link
  if resolved.isAbs then
    .ok (root_dir.joinpath (relative_to_root resolved))
  else
    (fs.hostResolve link).relative_to (fs.hostResolve root_dir)

/-- POSIX normalization of a component list hanging off a fixed base
directory: a `..` component removes the previously accumulated component
(at the base itself it is a no-op, as `/..` is `/`). -/
def normalizeParts (l : List String) : List String :=
  l.foldl (fun acc c => if c = ".." then acc.dropLast else acc ++ [c]) []

/-- `p` denotes a location inside the directory `root`: same anchor, and
after `..`-normalization `root`'s components lead `p`'s. -/
def withinRoot (root p : PyPath) : Prop :=
  root.isAbs = p.isAbs ∧
    (normalizeParts p.parts).take (normalizeParts root.parts).length =
      normalizeParts root.parts

instance (root p : PyPath) : Decidable (withinRoot root p) := by
  unfold withinRoot
  infer_instance

/-- Python `str.split(",")` on the character list: split at every comma.
Always yields at least one field (the empty string splits to `[""]`). -/
def splitComma : List Char → List (List Char)
  | [] => [[]]
  | c :: rest =>
    match splitComma rest with
    | [] => []
    | s :: ss => if c = ',' then [] :: s :: ss else (c :: s) :: ss

/-- Python `str.split(",")` on a `String`. -/
def pySplitComma (s : String) : List String :=
  (splitComma s.data).map String.mk

/-- Python `str.strip()`: remove leading and trailing whitespace. -/
def pyStrip (s : String) : String :=
  String.mk
    (((s.data.dropWhile Char.isWhitespace).reverse.dropWhile
      Char.isWhitespace).reverse)

/-- `detect_architecture` (validate_dynamic_deps.py:35-44), as a function of
the stdout of the `file` command: `result.stdout.split(",")`, a guard
comparing the number of fields with 0, and `split(",")[1].strip()`.
Indexing `[1]` raises `IndexError` when the list has fewer than two
elements, modelled by `Option.none`. -/
def detect_architecture (stdout : String) : Option String :=
  let parts := pySplitComma stdout
  if parts.length = 0 then
    some ""
  else
    (parts.get? 1).map pyStrip

/-- Capability environment for the closure walk (spec §9 prescribes exactly
this narrow interface around the subprocess calls):
* `find` models `find_dependencies_with_name` (`root_dir.glob`), the
  candidate paths for a dependency name, in glob order;
* `is_symlink` models `Path.is_symlink`;
* `resolve_link` abstracts a successful `resolve_container_link` call on
  the extraction root;
* `arch` abstracts a successful `detect_architecture` call (the stdout
  parsing itself is modelled separately above);
* `needed` models `detect_dependencies` (the NEEDED names objdump reports,
  in order). -/
structure Env where
  find : String → List PyPath
  is_symlink : PyPath → Bool
  resolve_link : PyPath → PyPath
  arch : PyPath → String
  needed : PyPath → List String

/-- The path actually probed for a candidate `dep_path`
(validate_dynamic_deps.py:134-135): symlinks are resolved first. -/
def Env.probePath (env : Env) (p : PyPath) : PyPath :=
  if env.is_symlink p then env.resolve_link p else p

/-- Python `dict` assignment `d[k] = v`: overwrite in place if the key is
present, else append. -/
def dictInsert (d : List (PyPath × String)) (k : PyPath) (v : String) :
    List (PyPath × String) :=
  if d.any (fun kv => kv.1 = k) then
    d.map (fun kv => if kv.1 = k then (k, v) else kv)
  else
    d ++ [(k, v)]

/-- State of the closure walk (validate_dynamic_deps.py:116-118):
the work queue `deps` (a Python list, popped from the end), the `seen` and
`missing` sets (membership is what matters), and the `wrong_arch` dict
(insertion-ordered association list keyed by probed path). -/
structure WalkState where
  deps : List String
  seen : List String
  missing : List String
  wrong_arch : List (PyPath × String)
deriving DecidableEq, Repr

/-- The `for dep_path in dep_paths` body (validate_dynamic_deps.py:132-144):
returns the updated `wrong_arch` dict together with the names appended to
`deps` (in append order).  A path whose architecture differs from the
target's is recorded and contributes no names; a matching path contributes
its NEEDED entries. -/
def processDepPaths (env : Env) (targetArch : String)
    (wrong_arch : List (PyPath × String)) :
    List PyPath → List (PyPath × String) × List String
  | [] => (wrong_arch, [])
  | p :: rest =>
    let probed := env.probePath p
    let dep_arch := env.arch probed
    if dep_arch ≠ targetArch then
      processDepPaths env targetArch (dictInsert wrong_arch probed dep_arch) rest
    else
      let tail := processDepPaths env targetArch wrong_arch rest
      (tail.1, env.needed probed ++ tail.2)

/-- A work-queue discipline: how `deps.pop()` chooses an element.  The
source pops from the end (`popLast`); `popFirst` is the FIFO variant. -/
def popLast (l : List String) : Option (String × List String) :=
  match l.getLast? with
  | none => none
  | some x => some (x, l.dropLast)

def popFirst : List String → Option (String × List String)
  | [] => none
  | x :: r => some (x, r)

/-- One iteration of the `while deps` loop (validate_dynamic_deps.py:119-144)
under queue discipline `pick`; identity when the queue is empty. -/
def loopIter (env : Env) (targetArch : String)
    (pick : List String → Option (String × List String))
    (st : WalkState) : WalkState :=
  match pick st.deps with
  | none => st
  | some (current, rest) =>
    if current ∈ st.seen then
      { st with deps := rest }
    else
      let seen' := st.seen.insert current
      let dep_paths := env.find current
      if dep_paths = [] then
        { deps := rest, seen := seen',
          missing := st.missing.insert current, wrong_arch := st.wrong_arch }
      else
        let out := processDepPaths env targetArch st.wrong_arch dep_paths
        { deps := rest ++ out.2, seen := seen',
          missing := st.missing, wrong_arch := out.1 }

/-- The `while deps` loop, fuel-bounded: runs `loopIter` until the queue is
empty or the fuel runs out. -/
def walk (env : Env) (targetArch : String)
    (pick : List String → Option (String × List String)) :
    Nat → WalkState → WalkState
  | 0, st => st
  | fuel + 1, st =>
    if st.deps = [] then st
    else walk env targetArch pick fuel (loopIter env targetArch pick st)

/-- Observable outcome of `main` (validate_dynamic_deps.py:105-172) after
the walk: the three collections, the exit code (validate_dynamic_deps.py:
151-164), and whether `shutil.rmtree(output_dir)` ran
(validate_dynamic_deps.py:169-170). -/
structure MainResult where
  seen : List String
  missing : List String
  wrong_arch : List (PyPath × String)
  exit_code : Nat
  cleaned : Bool
  walk_done : Bool
deriving DecidableEq, Repr

/-- Exit-code computation (validate_dynamic_deps.py:151-164): starts at 0,
set to 1 if `wrong_arch` is non-empty, set to 1 if `missing` is
non-empty. -/
def exitCode (final : WalkState) : Nat :=
  if final.wrong_arch ≠ [] ∨ final.missing ≠ [] then 1 else 0

/-- Pure model of `main`: starting from the target binary's NEEDED entries,
run the walk (with the source's LIFO discipline), then compute the exit
code and perform cleanup exactly when `clean` holds. -/
def runMain (env : Env) (targetArch : String) (initialDeps : List String)
    (clean : Bool) (fuel : Nat) : MainResult :=
  let final := walk env targetArch popLast fuel ⟨initialDeps, [], [], []⟩
  { seen := final.seen, missing := final.missing,
    wrong_arch := final.wrong_arch,
    exit_code := exitCode final,
    cleaned := clean,
    walk_done := decide (final.deps = []) }

/-- The keys of a `wrong_arch` dict. -/
def dictKeys (d : List (PyPath × String)) : List PyPath :=
  d.map Prod.fst

/-- The names the walk appends to the queue when it processes name `n`:
for each candidate path with the target's architecture, its NEEDED
entries, in order; nothing for mismatched candidates; nothing when there
are no candidates. -/
def expandNames (env : Env) (targetArch : String) (n : String) : List String :=
  ((env.find n).map (fun p =>
    if env.arch (env.probePath p) = targetArch then env.needed (env.probePath p)
    else [])).flatten

/-- Transitive reachability through the dependency graph the walk explores:
the initial NEEDED names, closed under expansion of matching candidates. -/
inductive Reaches (env : Env) (targetArch : String) (init : List String) :
    String → Prop
  | base {n : String} : n ∈ init → Reaches env targetArch init n
  | step {n m : String} : Reaches env targetArch init n →
      m ∈ expandNames env targetArch n → Reaches env targetArch init m

/-- A sound work-queue discipline: answers `none` exactly on the empty
queue, and otherwise splits the queue into one element and the rest. -/
def ValidPick (pick : List String → Option (String × List String)) : Prop :=
  (∀ l, pick l = none ↔ l = []) ∧
    ∀ l x r, pick l = some (x, r) → ∀ y, y ∈ l ↔ (y = x ∨ y ∈ r)

/-- The induction invariant of the closure walk: everything recorded is
reachable, everything reachable is (eventually) covered, and the three
collections describe exactly the classifications the code performs. -/
structure WalkInv (env : Env) (A : String) (init : List String)
    (st : WalkState) : Prop where
  deps_reach : ∀ n ∈ st.deps, Reaches env A init n
  seen_reach : ∀ n ∈ st.seen, Reaches env A init n
  init_covered : ∀ n ∈ init, n ∈ st.seen ∨ n ∈ st.deps
  seen_closed : ∀ n ∈ st.seen, ∀ m ∈ expandNames env A n,
    m ∈ st.seen ∨ m ∈ st.deps
  missing_spec : ∀ n ∈ st.missing, n ∈ st.seen ∧ env.find n = []
  missing_covered : ∀ n ∈ st.seen, env.find n = [] → n ∈ st.missing
  wa_spec : ∀ kv ∈ st.wrong_arch, kv.2 = env.arch kv.1 ∧
    ∃ n ∈ st.seen, ∃ p ∈ env.find n, kv.1 = env.probePath p ∧
      env.arch kv.1 ≠ A
  wa_covered : ∀ n ∈ st.seen, ∀ p ∈ env.find n,
    env.arch (env.probePath p) ≠ A →
    env.probePath p ∈ dictKeys st.wrong_arch

theorem foldl_norm_no_dotdot (l : List String) (hl : ".." ∉ l) :
    ∀ acc : List String,
      l.foldl (fun acc c => if c = ".." then acc.dropLast else acc ++ [c])
        acc = acc ++ l := by
  induction l with
  | nil => intro acc; simp
  | cons c rest ih =>
    intro acc
    have hc : ¬ c = ".." := fun h => hl (h ▸ List.mem_cons_self c rest)
    simp only [List.foldl_cons, hc, if_neg, not_false_iff]
    rw [ih (fun h => hl (List.mem_cons_of_mem c h))]
    simp

theorem normalizeParts_no_dotdot (l : List String) (hl : ".." ∉ l) :
    normalizeParts l = l := by
  unfold normalizeParts
  rw [foldl_norm_no_dotdot l hl []]
  simp

/-- The guard of `PyPath.relative_to` does express "base's components lead
p's components". -/
theorem take_eq_iff_append (l b : List String) :
    l.take b.length = b ↔ ∃ t, l = b ++ t := by
  constructor
  · intro h
    exact ⟨l.drop b.length, by
      conv_lhs => rw [← List.take_append_drop b.length l, h]⟩
  · rintro ⟨t, ht⟩
    rw [ht]
    simp

theorem popLast_valid : ValidPick popLast := by
  constructor
  · intro l
    cases l with
    | nil => simp [popLast]
    | cons a t =>
      simp [popLast, List.getLast?_eq_getLast_of_ne_nil (l := a :: t) (by simp)]
  · intro l x r h y
    have hne : l ≠ [] := by
      intro hl
      subst hl
      simp [popLast] at h
    rw [popLast, List.getLast?_eq_getLast_of_ne_nil hne] at h
    simp only [Option.some.injEq, Prod.mk.injEq] at h
    obtain ⟨rfl, rfl⟩ := h
    constructor
    · intro hy
      rw [← List.dropLast_append_getLast hne] at hy
      rcases List.mem_append.1 hy with h1 | h1
      · exact Or.inr h1
      · exact Or.inl (by simpa using h1)
    · rintro (rfl | hy)
      · exact List.getLast_mem hne
      · exact List.dropLast_subset l hy

theorem popFirst_valid : ValidPick popFirst := by
  constructor
  · intro l
    cases l <;> simp [popFirst]
  · intro l x r h y
    cases l with
    | nil => simp [popFirst] at h
    | cons a t =>
      simp only [popFirst, Option.some.injEq, Prod.mk.injEq] at h
      obtain ⟨rfl, rfl⟩ := h
      simp

theorem mem_dictKeys {d : List (PyPath × String)} {k : PyPath} :
    k ∈ dictKeys d ↔ ∃ v, (k, v) ∈ d := by
  constructor
  · intro h
    rcases List.mem_map.1 h with ⟨kv, hkv, hfst⟩
    exact ⟨kv.2, by rwa [show (k, kv.2) = kv from by rw [← hfst]]⟩
  · rintro ⟨v, hv⟩
    exact List.mem_map.2 ⟨(k, v), hv, rfl⟩

theorem dictKeys_dictInsert (d : List (PyPath × String)) (k : PyPath)
    (v : String) :
    dictKeys (dictInsert d k v) = dictKeys d ∨
      dictKeys (dictInsert d k v) = dictKeys d ++ [k] := by
  unfold dictInsert
  by_cases h : d.any (fun kv => kv.1 = k)
  · left
    simp only [h, if_pos]
    unfold dictKeys
    rw [List.map_map]
    apply List.map_congr_left
    intro kv _
    by_cases hk : kv.1 = k
    · simp [hk]
    · simp [hk]
  · right
    simp only [h, if_neg, not_false_iff]
    simp [dictKeys]

theorem mem_dictKeys_dictInsert_self (d : List (PyPath × String))
    (k : PyPath) (v : String) : k ∈ dictKeys (dictInsert d k v) := by
  unfold dictInsert
  by_cases h : d.any (fun kv => kv.1 = k)
  · simp only [h, if_pos]
    rcases List.any_eq_true.1 h with ⟨kv, hkv, hk⟩
    refine List.mem_map.2 ⟨(k, v), List.mem_map.2 ⟨kv, hkv, ?_⟩, rfl⟩
    simp only [decide_eq_true_eq] at hk
    simp [hk]
  · simp only [h, if_neg, not_false_iff]
    simp [dictKeys]

theorem mem_dictKeys_dictInsert_of_mem {d : List (PyPath × String)}
    {k' : PyPath} (k : PyPath) (v : String) (h : k' ∈ dictKeys d) :
    k' ∈ dictKeys (dictInsert d k v) := by
  rcases dictKeys_dictInsert d k v with he | he
  · rwa [he]
  · rw [he]
    exact List.mem_append_left _ h

theorem pair_mem_dictInsert_self (d : List (PyPath × String)) (k : PyPath)
    (v : String) : (k, v) ∈ dictInsert d k v := by
  unfold dictInsert
  by_cases h : d.any (fun kv => kv.1 = k)
  · simp only [h, if_pos]
    rcases List.any_eq_true.1 h with ⟨kv, hkv, hk⟩
    simp only [decide_eq_true_eq] at hk
    exact List.mem_map.2 ⟨kv, hkv, by simp [hk]⟩
  · simp only [h, if_neg, not_false_iff]
    simp

theorem dictInsert_canonical {f : PyPath → String}
    {d : List (PyPath × String)} (hd : ∀ kv ∈ d, kv.2 = f kv.1)
    (k : PyPath) : ∀ kv ∈ dictInsert d k (f k), kv.2 = f kv.1 := by
  intro kv hkv
  unfold dictInsert at hkv
  by_cases h : d.any (fun kv => kv.1 = k)
  · simp only [h, if_pos] at hkv
    rcases List.mem_map.1 hkv with ⟨kv0, hkv0, heq⟩
    by_cases hk : kv0.1 = k
    · simp only [hk, if_pos] at heq
      rw [← heq]
    · simp only [hk, if_neg, not_false_iff] at heq
      rw [← heq]
      exact hd kv0 hkv0
  · simp only [h, if_neg, not_false_iff] at hkv
    rcases List.mem_append.1 hkv with h1 | h1
    · exact hd kv h1
    · simp only [List.mem_singleton] at h1
      rw [h1]

theorem mem_dictInsert_of_mem_canonical {f : PyPath → String}
    {d : List (PyPath × String)} {kv : PyPath × String}
    (hd : ∀ kv' ∈ d, kv'.2 = f kv'.1) (k : PyPath) (h : kv ∈ d) :
    kv ∈ dictInsert d k (f k) := by
  unfold dictInsert
  by_cases hc : d.any (fun kv => kv.1 = k)
  · simp only [hc, if_pos]
    refine List.mem_map.2 ⟨kv, h, ?_⟩
    by_cases hk : kv.1 = k
    · have hv : kv.2 = f k := by rw [hd kv h, hk]
      simp only [hk, if_pos, ← hv]
      rw [← hk]
    · simp [hk]
  · simp only [hc, if_neg, not_false_iff]
    exact List.mem_append_left _ h

theorem mem_dictInsert_elim {f : PyPath → String}
    {d : List (PyPath × String)} {kv : PyPath × String} {k : PyPath}
    (h : kv ∈ dictInsert d k (f k)) : kv ∈ d ∨ kv = (k, f k) := by
  unfold dictInsert at h
  by_cases hc : d.any (fun kv => kv.1 = k)
  · simp only [hc, if_pos] at h
    rcases List.mem_map.1 h with ⟨kv0, hkv0, heq⟩
    by_cases hk : kv0.1 = k
    · simp only [hk, if_pos] at heq
      exact Or.inr heq.symm
    · simp only [hk, if_neg, not_false_iff] at heq
      exact Or.inl (heq ▸ hkv0)
  · simp only [hc, if_neg, not_false_iff] at h
    rcases List.mem_append.1 h with h1 | h1
    · exact Or.inl h1
    · exact Or.inr (by simpa using h1)

theorem processDepPaths_snd_eq (env : Env) (A : String) :
    ∀ (l : List PyPath) (wa : List (PyPath × String)),
      (processDepPaths env A wa l).2 =
        (l.map fun p =>
          if env.arch (env.probePath p) = A then env.needed (env.probePath p)
          else []).flatten := by
  intro l
  induction l with
  | nil => intro wa; rfl
  | cons p rest ih =>
    intro wa
    by_cases h : env.arch (env.probePath p) = A
    · simp [processDepPaths, h, ih]
    · simp [processDepPaths, h, ih]

theorem processDepPaths_fst_canonical (env : Env) (A : String) :
    ∀ (l : List PyPath) (wa : List (PyPath × String)),
      (∀ kv ∈ wa, kv.2 = env.arch kv.1) →
      ∀ kv ∈ (processDepPaths env A wa l).1, kv.2 = env.arch kv.1 := by
  intro l
  induction l with
  | nil => intro wa hd; exact hd
  | cons p rest ih =>
    intro wa hd
    by_cases h : env.arch (env.probePath p) = A
    · simp only [processDepPaths, h, ne_eq, not_true_eq_false, if_neg,
        not_false_iff]
      exact ih wa hd
    · simp only [processDepPaths, ne_eq, h, not_false_iff, if_pos]
      exact ih _ (dictInsert_canonical hd _)

theorem processDepPaths_fst_mono (env : Env) (A : String) :
    ∀ (l : List PyPath) (wa : List (PyPath × String)),
      (∀ kv ∈ wa, kv.2 = env.arch kv.1) →
      ∀ kv ∈ wa, kv ∈ (processDepPaths env A wa l).1 := by
  intro l
  induction l with
  | nil => intro wa _ kv h; exact h
  | cons p rest ih =>
    intro wa hd kv h
    by_cases hm : env.arch (env.probePath p) = A
    · simp only [processDepPaths, hm, ne_eq, not_true_eq_false, if_neg,
        not_false_iff]
      exact ih wa hd kv h
    · simp only [processDepPaths, ne_eq, hm, not_false_iff, if_pos]
      exact ih _ (dictInsert_canonical hd _) kv
        (mem_dictInsert_of_mem_canonical hd _ h)

theorem processDepPaths_fst_elim (env : Env) (A : String) :
    ∀ (l : List PyPath) (wa : List (PyPath × String)),
      (∀ kv ∈ wa, kv.2 = env.arch kv.1) →
      ∀ kv ∈ (processDepPaths env A wa l).1,
        kv ∈ wa ∨ ∃ p ∈ l, kv.1 = env.probePath p ∧ kv.2 = env.arch kv.1 ∧
          env.arch (env.probePath p) ≠ A := by
  intro l
  induction l with
  | nil => intro wa _ kv h; exact Or.inl h
  | cons p rest ih =>
    intro wa hd kv h
    by_cases hm : env.arch (env.probePath p) = A
    · simp only [processDepPaths, hm, ne_eq, not_true_eq_false, if_neg,
        not_false_iff] at h
      rcases ih wa hd kv h with h1 | ⟨q, hq, hkv⟩
      · exact Or.inl h1
      · exact Or.inr ⟨q, List.mem_cons_of_mem _ hq, hkv⟩
    · simp only [processDepPaths, ne_eq, hm, not_false_iff, if_pos] at h
      rcases ih _ (dictInsert_canonical hd _) kv h with h1 | ⟨q, hq, hkv⟩
      · rcases mem_dictInsert_elim h1 with h2 | h2
        · exact Or.inl h2
        · refine Or.inr ⟨p, List.mem_cons_self _ _, ?_⟩
          rw [h2]
          exact ⟨rfl, rfl, hm⟩
      · exact Or.inr ⟨q, List.mem_cons_of_mem _ hq, hkv⟩

theorem processDepPaths_covers (env : Env) (A : String) :
    ∀ (l : List PyPath) (wa : List (PyPath × String)),
      (∀ kv ∈ wa, kv.2 = env.arch kv.1) →
      ∀ p ∈ l, env.arch (env.probePath p) ≠ A →
        (env.probePath p, env.arch (env.probePath p)) ∈
          (processDepPaths env A wa l).1 := by
  intro l
  induction l with
  | nil => intro wa _ p h; exact absurd h (List.not_mem_nil p)
  | cons q rest ih =>
    intro wa hd p hp hm
    rcases List.mem_cons.1 hp with rfl | hp'
    · simp only [processDepPaths, ne_eq, hm, not_false_iff, if_pos]
      exact processDepPaths_fst_mono env A rest _
        (dictInsert_canonical hd _) _
        (pair_mem_dictInsert_self wa _ _)
    · by_cases hq : env.arch (env.probePath q) = A
      · simp only [processDepPaths, hq, ne_eq, not_true_eq_false, if_neg,
          not_false_iff]
        exact ih wa hd p hp' hm
      · simp only [processDepPaths, ne_eq, hq, not_false_iff, if_pos]
        exact ih _ (dictInsert_canonical hd _) p hp' hm

theorem processDepPaths_keys_mono (env : Env) (A : String) :
    ∀ (l : List PyPath) (wa : List (PyPath × String)) (k : PyPath),
      k ∈ dictKeys wa → k ∈ dictKeys (processDepPaths env A wa l).1 := by
  intro l
  induction l with
  | nil => intro wa k h; exact h
  | cons p rest ih =>
    intro wa k h
    by_cases hm : env.arch (env.probePath p) = A
    · simp only [processDepPaths, hm, ne_eq, not_true_eq_false, if_neg,
        not_false_iff]
      exact ih wa k h
    · simp only [processDepPaths, ne_eq, hm, not_false_iff, if_pos]
      exact ih _ k (mem_dictKeys_dictInsert_of_mem _ _ h)

theorem loopIter_keys_mono (env : Env) (A : String)
    (pick : List String → Option (String × List String)) (st : WalkState)
    (k : PyPath) (h : k ∈ dictKeys st.wrong_arch) :
    k ∈ dictKeys (loopIter env A pick st).wrong_arch := by
  unfold loopIter
  split
  · exact h
  · split
    · exact h
    · dsimp only
      split
      · exact h
      · exact processDepPaths_keys_mono env A _ _ k h

theorem walk_keys_mono (env : Env) (A : String)
    (pick : List String → Option (String × List String)) :
    ∀ (fuel : Nat) (st : WalkState) (k : PyPath),
      k ∈ dictKeys st.wrong_arch →
      k ∈ dictKeys (walk env A pick fuel st).wrong_arch := by
  intro fuel
  induction fuel with
  | zero => intro st k h; exact h
  | succ n ih =>
    intro st k h
    unfold walk
    by_cases hd : st.deps = []
    · simpa [hd]
    · simp only [hd, if_neg, not_false_iff]
      exact ih _ k (loopIter_keys_mono env A pick st k h)

theorem processDepPaths_keys_covers (env : Env) (A : String) :
    ∀ (l : List PyPath) (wa : List (PyPath × String)) (p : PyPath),
      p ∈ l → env.arch (env.probePath p) ≠ A →
      env.probePath p ∈ dictKeys (processDepPaths env A wa l).1 := by
  intro l
  induction l with
  | nil => intro wa p h; exact absurd h (List.not_mem_nil p)
  | cons q rest ih =>
    intro wa p hp hm
    rcases List.mem_cons.1 hp with rfl | hp'
    · simp only [processDepPaths, ne_eq, hm, not_false_iff, if_pos]
      exact processDepPaths_keys_mono env A rest _ _
        (mem_dictKeys_dictInsert_self wa _ _)
    · by_cases hq : env.arch (env.probePath q) = A
      · simp only [processDepPaths, hq, ne_eq, not_true_eq_false, if_neg,
          not_false_iff]
        exact ih wa p hp' hm
      · simp only [processDepPaths, ne_eq, hq, not_false_iff, if_pos]
        exact ih _ p hp' hm

theorem loopIter_missing_subset_seen (env : Env) (A : String)
    (pick : List String → Option (String × List String)) (st : WalkState)
    (h : ∀ n ∈ st.missing, n ∈ st.seen) :
    ∀ n ∈ (loopIter env A pick st).missing,
      n ∈ (loopIter env A pick st).seen := by
  unfold loopIter
  split
  · exact h
  · split
    · exact h
    · dsimp only
      split
      · intro n hn
        rcases List.mem_insert_iff.1 hn with rfl | h1
        · exact List.mem_insert_self _ _
        · exact List.mem_insert_of_mem (h n h1)
      · intro n hn
        exact List.mem_insert_of_mem (h n hn)

theorem walk_missing_subset_seen (env : Env) (A : String)
    (pick : List String → Option (String × List String)) :
    ∀ (fuel : Nat) (st : WalkState),
      (∀ n ∈ st.missing, n ∈ st.seen) →
      ∀ n ∈ (walk env A pick fuel st).missing,
        n ∈ (walk env A pick fuel st).seen := by
  intro fuel
  induction fuel with
  | zero => intro st h; exact h
  | succ m ih =>
    intro st h
    unfold walk
    by_cases hd : st.deps = []
    · simpa [hd]
    · simp only [hd, if_neg, not_false_iff]
      exact ih _ (loopIter_missing_subset_seen env A pick st h)

theorem walk_succ_of_ne (env : Env) (A : String)
    (pick : List String → Option (String × List String)) (fuel : Nat)
    (st : WalkState) (h : st.deps ≠ []) :
    walk env A pick (fuel + 1) st =
      walk env A pick fuel (loopIter env A pick st) := by
  show (if st.deps = [] then st
      else walk env A pick fuel (loopIter env A pick st)) = _
  simp [h]

theorem popLast_of_ne_nil {l : List String} (h : l ≠ []) :
    popLast l = some (l.getLast h, l.dropLast) := by
  unfold popLast
  rw [List.getLast?_eq_getLast_of_ne_nil h]

theorem expandNames_of_find_nil {env : Env} {A : String} {n : String}
    (h : env.find n = []) : expandNames env A n = [] := by
  simp [expandNames, h]

theorem filter_length_le_of_imp (p q : String → Bool)
    (h : ∀ x, q x = true → p x = true) :
    ∀ U : List String, (U.filter q).length ≤ (U.filter p).length := by
  intro U
  induction U with
  | nil => simp
  | cons a rest ih =>
    by_cases hq : q a
    · have hp := h a hq
      simp only [List.filter_cons, hq, hp, if_pos, List.length_cons]
      omega
    · by_cases hp : p a
      · simp only [List.filter_cons, hq, hp, if_pos, if_neg,
          Bool.false_eq_true, not_false_iff, List.length_cons]
        omega
      · simp only [List.filter_cons, hq, hp, Bool.false_eq_true, if_neg,
          not_false_iff]
        exact ih

theorem filter_unseen_length_lt (seenL : List String) (c : String)
    (hns : c ∉ seenL) :
    ∀ U : List String, c ∈ U →
      (U.filter fun x => decide (x ∉ List.insert c seenL)).length <
        (U.filter fun x => decide (x ∉ seenL)).length := by
  have himp : ∀ x : String,
      decide (x ∉ List.insert c seenL) = true →
      decide (x ∉ seenL) = true := by
    intro x hx
    simp only [decide_eq_true_eq] at hx ⊢
    exact fun hmem => hx (List.mem_insert_of_mem hmem)
  intro U
  induction U with
  | nil => intro hc; exact absurd hc (List.not_mem_nil c)
  | cons a rest ih =>
    intro hc
    by_cases hac : a = c
    · subst hac
      have h1 : decide (a ∉ List.insert a seenL) = false := by
        simp [List.mem_insert_self]
      have h2 : decide (a ∉ seenL) = true := by simpa using hns
      simp only [List.filter_cons, h1, h2, if_pos, Bool.false_eq_true,
        if_neg, not_false_iff, List.length_cons]
      have := filter_length_le_of_imp _ _ himp rest
      omega
    · have hcr : c ∈ rest := by
        rcases List.mem_cons.1 hc with h1 | h1
        · exact absurd h1.symm hac
        · exact h1
      by_cases has : a ∈ seenL
      · have h1 : decide (a ∉ List.insert c seenL) = false := by
          simp [List.mem_insert_of_mem has]
        have h2 : decide (a ∉ seenL) = false := by simp [has]
        simp only [List.filter_cons, h1, h2, Bool.false_eq_true, if_neg,
          not_false_iff]
        exact ih hcr
      · have h1 : decide (a ∉ List.insert c seenL) = true := by
          simp [List.mem_insert_iff, hac, has]
        have h2 : decide (a ∉ seenL) = true := by simp [has]
        simp only [List.filter_cons, h1, h2, if_pos, List.length_cons]
        exact Nat.succ_lt_succ (ih hcr)

theorem processDepPaths_snd_find (env : Env) (A : String)
    (wa : List (PyPath × String)) (n : String) :
    (processDepPaths env A wa (env.find n)).2 = expandNames env A n := by
  rw [processDepPaths_snd_eq]
  rfl

/-- Fuel-independence: a run that has drained its queue within some fuel
bound exists whenever `seen` can only grow within a finite universe `U`
closed under expansion. -/
theorem walk_terminates_aux (env : Env) (A : String) (U : List String)
    (hclosed : ∀ (n m : String), m ∈ expandNames env A n → m ∈ U) :
    ∀ (k d : Nat) (st : WalkState),
      (∀ n ∈ st.deps, n ∈ U) →
      (U.filter fun x => decide (x ∉ st.seen)).length ≤ k →
      st.deps.length ≤ d →
      ∃ fuel, (walk env A popLast fuel st).deps = [] := by
  intro k
  induction k with
  | zero =>
    intro d
    induction d with
    | zero =>
      intro st _ _ hd
      exact ⟨0, List.length_eq_zero.1 (Nat.le_zero.1 hd)⟩
    | succ d ihd =>
      intro st hU hk hd
      by_cases hnil : st.deps = []
      · exact ⟨0, hnil⟩
      · have hpop := popLast_of_ne_nil hnil
        have hcur : st.deps.getLast hnil ∈ st.deps := List.getLast_mem hnil
        by_cases hs : st.deps.getLast hnil ∈ st.seen
        · have he : loopIter env A popLast st =
              { st with deps := st.deps.dropLast } := by
            unfold loopIter
            rw [hpop]
            simp [hs]
          obtain ⟨fuel, hfin⟩ := ihd { st with deps := st.deps.dropLast }
            (fun n hn => hU n (List.dropLast_subset _ hn)) hk
            (by
              have := List.length_dropLast st.deps
              simp only []
              omega)
          exact ⟨fuel + 1, by
            rw [walk_succ_of_ne env A popLast fuel st hnil, he]
            exact hfin⟩
        · exfalso
          have hmem : st.deps.getLast hnil ∈
              U.filter fun x => decide (x ∉ st.seen) :=
            List.mem_filter.2 ⟨hU _ hcur, by simpa using hs⟩
          have hpos : 0 < (U.filter fun x => decide (x ∉ st.seen)).length :=
            List.length_pos.2 (fun h => by
              rw [h] at hmem
              exact absurd hmem (List.not_mem_nil _))
          omega
  | succ k ihk =>
    intro d
    induction d with
    | zero =>
      intro st _ _ hd
      exact ⟨0, List.length_eq_zero.1 (Nat.le_zero.1 hd)⟩
    | succ d ihd =>
      intro st hU hk hd
      by_cases hnil : st.deps = []
      · exact ⟨0, hnil⟩
      · have hpop := popLast_of_ne_nil hnil
        have hcur : st.deps.getLast hnil ∈ st.deps := List.getLast_mem hnil
        by_cases hs : st.deps.getLast hnil ∈ st.seen
        · have he : loopIter env A popLast st =
              { st with deps := st.deps.dropLast } := by
            unfold loopIter
            rw [hpop]
            simp [hs]
          obtain ⟨fuel, hfin⟩ := ihd { st with deps := st.deps.dropLast }
            (fun n hn => hU n (List.dropLast_subset _ hn)) hk
            (by
              have := List.length_dropLast st.deps
              simp only []
              omega)
          exact ⟨fuel + 1, by
            rw [walk_succ_of_ne env A popLast fuel st hnil, he]
            exact hfin⟩
        · have hdec : (U.filter fun x =>
              decide (x ∉ List.insert (st.deps.getLast hnil) st.seen)).length
                ≤ k := by
            have := filter_unseen_length_lt st.seen _ hs U (hU _ hcur)
            omega
          by_cases hf : env.find (st.deps.getLast hnil) = []
          · have he : loopIter env A popLast st =
                { deps := st.deps.dropLast,
                  seen := st.seen.insert (st.deps.getLast hnil),
                  missing := st.missing.insert (st.deps.getLast hnil),
                  wrong_arch := st.wrong_arch } := by
              unfold loopIter
              rw [hpop]
              simp [hs, hf]
            obtain ⟨fuel, hfin⟩ := ihk st.deps.dropLast.length
              { deps := st.deps.dropLast,
                seen := st.seen.insert (st.deps.getLast hnil),
                missing := st.missing.insert (st.deps.getLast hnil),
                wrong_arch := st.wrong_arch }
              (fun n hn => hU n (List.dropLast_subset _ hn)) hdec le_rfl
            exact ⟨fuel + 1, by
              rw [walk_succ_of_ne env A popLast fuel st hnil, he]
              exact hfin⟩
          · have hsnd :=
              processDepPaths_snd_find env A st.wrong_arch
                (st.deps.getLast hnil)
            have he : loopIter env A popLast st =
                { deps := st.deps.dropLast ++
                    (processDepPaths env A st.wrong_arch
                      (env.find (st.deps.getLast hnil))).2,
                  seen := st.seen.insert (st.deps.getLast hnil),
                  missing := st.missing,
                  wrong_arch := (processDepPaths env A st.wrong_arch
                    (env.find (st.deps.getLast hnil))).1 } := by
              unfold loopIter
              rw [hpop]
              simp [hs, hf]
            obtain ⟨fuel, hfin⟩ := ihk
              (st.deps.dropLast ++
                (processDepPaths env A st.wrong_arch
                  (env.find (st.deps.getLast hnil))).2).length
              { deps := st.deps.dropLast ++
                  (processDepPaths env A st.wrong_arch
                    (env.find (st.deps.getLast hnil))).2,
                seen := st.seen.insert (st.deps.getLast hnil),
                missing := st.missing,
                wrong_arch := (processDepPaths env A st.wrong_arch
                  (env.find (st.deps.getLast hnil))).1 }
              (fun n hn => by
                rcases List.mem_append.1 hn with h1 | h1
                · exact hU n (List.dropLast_subset _ h1)
                · rw [hsnd] at h1
                  exact hclosed _ n h1)
              hdec le_rfl
            exact ⟨fuel + 1, by
              rw [walk_succ_of_ne env A popLast fuel st hnil, he]
              exact hfin⟩

theorem walkInv_initial (env : Env) (A : String) (init : List String) :
    WalkInv env A init ⟨init, [], [], []⟩ where
  deps_reach := fun _ hn => Reaches.base hn
  seen_reach := fun n hn => absurd hn (List.not_mem_nil n)
  init_covered := fun _ hn => Or.inr hn
  seen_closed := fun n hn => absurd hn (List.not_mem_nil n)
  missing_spec := fun n hn => absurd hn (List.not_mem_nil n)
  missing_covered := fun n hn => absurd hn (List.not_mem_nil n)
  wa_spec := fun kv hkv => absurd hkv (List.not_mem_nil kv)
  wa_covered := fun n hn => absurd hn (List.not_mem_nil n)

theorem walkInv_loopIter (env : Env) (A : String) (init : List String)
    (pick : List String → Option (String × List String))
    (hpv : ValidPick pick) (st : WalkState) (h : WalkInv env A init st) :
    WalkInv env A init (loopIter env A pick st) := by
  obtain ⟨hnone, hsome⟩ := hpv
  cases hp : pick st.deps with
  | none =>
    have he : loopIter env A pick st = st := by
      unfold loopIter
      rw [hp]
    rw [he]
    exact h
  | some cr =>
    obtain ⟨current, rest⟩ := cr
    have hmem := hsome st.deps current rest hp
    have hcur : current ∈ st.deps := (hmem current).2 (Or.inl rfl)
    have hrest : ∀ y ∈ rest, y ∈ st.deps := fun y hy =>
      (hmem y).2 (Or.inr hy)
    have hsplit : ∀ y ∈ st.deps, y = current ∨ y ∈ rest := fun y hy =>
      (hmem y).1 hy
    by_cases hs : current ∈ st.seen
    · have he : loopIter env A pick st = { st with deps := rest } := by
        unfold loopIter
        rw [hp]
        simp [hs]
      rw [he]
      refine ⟨fun n hn => h.deps_reach n (hrest n hn), h.seen_reach,
        ?_, ?_, h.missing_spec, h.missing_covered, ?_, h.wa_covered⟩
      · intro n hn
        rcases h.init_covered n hn with h1 | h1
        · exact Or.inl h1
        · rcases hsplit n h1 with rfl | h2
          · exact Or.inl hs
          · exact Or.inr h2
      · intro n hn m hm
        rcases h.seen_closed n hn m hm with h1 | h1
        · exact Or.inl h1
        · rcases hsplit m h1 with rfl | h2
          · exact Or.inl hs
          · exact Or.inr h2
      · intro kv hkv
        exact h.wa_spec kv hkv
    · have hreach : Reaches env A init current := h.deps_reach current hcur
      by_cases hf : env.find current = []
      · have he : loopIter env A pick st =
            { deps := rest, seen := st.seen.insert current,
              missing := st.missing.insert current,
              wrong_arch := st.wrong_arch } := by
          unfold loopIter
          rw [hp]
          simp [hs, hf]
        rw [he]
        refine ⟨fun n hn => h.deps_reach n (hrest n hn), ?_, ?_, ?_, ?_,
          ?_, ?_, ?_⟩
        · intro n hn
          rcases List.mem_insert_iff.1 hn with rfl | h1
          · exact hreach
          · exact h.seen_reach n h1
        · intro n hn
          rcases h.init_covered n hn with h1 | h1
          · exact Or.inl (List.mem_insert_of_mem h1)
          · rcases hsplit n h1 with rfl | h2
            · exact Or.inl (List.mem_insert_self _ _)
            · exact Or.inr h2
        · intro n hn m hm
          rcases List.mem_insert_iff.1 hn with rfl | h1
          · rw [expandNames_of_find_nil hf] at hm
            exact absurd hm (List.not_mem_nil m)
          · rcases h.seen_closed n h1 m hm with h2 | h2
            · exact Or.inl (List.mem_insert_of_mem h2)
            · rcases hsplit m h2 with rfl | h3
              · exact Or.inl (List.mem_insert_self _ _)
              · exact Or.inr h3
        · intro n hn
          rcases List.mem_insert_iff.1 hn with rfl | h1
          · exact ⟨List.mem_insert_self _ _, hf⟩
          · obtain ⟨h2, h3⟩ := h.missing_spec n h1
            exact ⟨List.mem_insert_of_mem h2, h3⟩
        · intro n hn hfn
          rcases List.mem_insert_iff.1 hn with rfl | h1
          · exact List.mem_insert_self _ _
          · exact List.mem_insert_of_mem (h.missing_covered n h1 hfn)
        · intro kv hkv
          obtain ⟨h1, n, h2, h3⟩ := h.wa_spec kv hkv
          exact ⟨h1, n, List.mem_insert_of_mem h2, h3⟩
        · intro n hn p hps hm
          rcases List.mem_insert_iff.1 hn with rfl | h1
          · rw [hf] at hps
            exact absurd hps (List.not_mem_nil p)
          · exact h.wa_covered n h1 p hps hm
      · have he : loopIter env A pick st =
            { deps := rest ++
                (processDepPaths env A st.wrong_arch (env.find current)).2,
              seen := st.seen.insert current,
              missing := st.missing,
              wrong_arch :=
                (processDepPaths env A st.wrong_arch (env.find current)).1 } := by
          unfold loopIter
          rw [hp]
          simp [hs, hf]
        have hwa_val : ∀ kv ∈ st.wrong_arch, kv.2 = env.arch kv.1 :=
          fun kv hkv => (h.wa_spec kv hkv).1
        have hsnd := processDepPaths_snd_find env A st.wrong_arch current
        rw [he]
        refine ⟨?_, ?_, ?_, ?_, ?_, ?_, ?_, ?_⟩
        · intro n hn
          rcases List.mem_append.1 hn with h1 | h1
          · exact h.deps_reach n (hrest n h1)
          · rw [hsnd] at h1
            exact Reaches.step hreach h1
        · intro n hn
          rcases List.mem_insert_iff.1 hn with rfl | h1
          · exact hreach
          · exact h.seen_reach n h1
        · intro n hn
          rcases h.init_covered n hn with h1 | h1
          · exact Or.inl (List.mem_insert_of_mem h1)
          · rcases hsplit n h1 with rfl | h2
            · exact Or.inl (List.mem_insert_self _ _)
            · exact Or.inr (List.mem_append_left _ h2)
        · intro n hn m hm
          rcases List.mem_insert_iff.1 hn with rfl | h1
          · refine Or.inr (List.mem_append_right _ ?_)
            rw [hsnd]
            exact hm
          · rcases h.seen_closed n h1 m hm with h2 | h2
            · exact Or.inl (List.mem_insert_of_mem h2)
            · rcases hsplit m h2 with rfl | h3
              · exact Or.inl (List.mem_insert_self _ _)
              · exact Or.inr (List.mem_append_left _ h3)
        · intro n hn
          obtain ⟨h1, h2⟩ := h.missing_spec n hn
          exact ⟨List.mem_insert_of_mem h1, h2⟩
        · intro n hn hfn
          rcases List.mem_insert_iff.1 hn with rfl | h1
          · exact absurd hfn hf
          · exact h.missing_covered n h1 hfn
        · intro kv hkv
          rcases processDepPaths_fst_elim env A (env.find current)
              st.wrong_arch hwa_val kv hkv with h1 | ⟨p, hps, hk, hv, hm⟩
          · obtain ⟨h2, n, h3, h4⟩ := h.wa_spec kv h1
            exact ⟨h2, n, List.mem_insert_of_mem h3, h4⟩
          · refine ⟨hv, current, List.mem_insert_self _ _, p, hps, hk, ?_⟩
            rw [hk]
            exact hm
        · intro n hn p hps hm
          rcases List.mem_insert_iff.1 hn with rfl | h1
          · exact mem_dictKeys.2 ⟨env.arch (env.probePath p),
              processDepPaths_covers env A (env.find n) st.wrong_arch
                hwa_val p hps hm⟩
          · exact processDepPaths_keys_mono env A _ _ _
              (h.wa_covered n h1 p hps hm)

theorem walkInv_walk (env : Env) (A : String) (init : List String)
    (pick : List String → Option (String × List String))
    (hpv : ValidPick pick) :
    ∀ (fuel : Nat) (st : WalkState), WalkInv env A init st →
      WalkInv env A init (walk env A pick fuel st) := by
  intro fuel
  induction fuel with
  | zero => intro st h; exact h
  | succ m ih =>
    intro st h
    unfold walk
    by_cases hd : st.deps = []
    · simpa [hd]
    · simp only [hd, if_neg, not_false_iff]
      exact ih _ (walkInv_loopIter env A init pick hpv st h)

/-- On any terminated run of the walk, the three result collections are
characterized purely by reachability through the dependency graph, with no
reference to the queue discipline or the fuel. -/
theorem walk_characterization (env : Env) (A : String) (init : List String)
    (pick : List String → Option (String × List String))
    (hpv : ValidPick pick) (fuel : Nat)
    (hdone : (walk env A pick fuel ⟨init, [], [], []⟩).deps = []) :
    (∀ n, n ∈ (walk env A pick fuel ⟨init, [], [], []⟩).seen ↔
        Reaches env A init n) ∧
    (∀ n, n ∈ (walk env A pick fuel ⟨init, [], [], []⟩).missing ↔
        Reaches env A init n ∧ env.find n = []) ∧
    (∀ kv, kv ∈ (walk env A pick fuel ⟨init, [], [], []⟩).wrong_arch ↔
        kv.2 = env.arch kv.1 ∧ ∃ n, Reaches env A init n ∧
          ∃ p ∈ env.find n, kv.1 = env.probePath p ∧ env.arch kv.1 ≠ A) := by
  have hinv := walkInv_walk env A init pick hpv fuel _
    (walkInv_initial env A init)
  set F := walk env A pick fuel ⟨init, [], [], []⟩ with hF
  have hseen : ∀ n, n ∈ F.seen ↔ Reaches env A init n := by
    intro n
    constructor
    · exact hinv.seen_reach n
    · intro hr
      induction hr with
      | base hn =>
        rcases hinv.init_covered _ hn with h1 | h1
        · exact h1
        · rw [hdone] at h1
          exact absurd h1 (List.not_mem_nil _)
      | step _ hm ih =>
        rcases hinv.seen_closed _ ih _ hm with h1 | h1
        · exact h1
        · rw [hdone] at h1
          exact absurd h1 (List.not_mem_nil _)
  refine ⟨hseen, ?_, ?_⟩
  · intro n
    constructor
    · intro hn
      obtain ⟨h1, h2⟩ := hinv.missing_spec n hn
      exact ⟨(hseen n).1 h1, h2⟩
    · rintro ⟨hr, hf⟩
      exact hinv.missing_covered n ((hseen n).2 hr) hf
  · intro kv
    constructor
    · intro hkv
      obtain ⟨h1, n, h2, h3⟩ := hinv.wa_spec kv hkv
      exact ⟨h1, n, (hseen n).1 h2, h3⟩
    · rintro ⟨hv, n, hr, p, hps, hk, hm⟩
      have hkey := hinv.wa_covered n ((hseen n).2 hr) p hps (by rw [← hk]; exact hm)
      rcases mem_dictKeys.1 hkey with ⟨v', hv'⟩
      have hv2 : v' = env.arch (env.probePath p) := (hinv.wa_spec _ hv').1
      have : v' = env.arch kv.1 := by
        rw [hk]
        exact hv2
      rw [← hk] at hv'
      have hkveq : kv = (kv.1, v') := by
        rw [this, ← hv]
      rw [hkveq]
      exact hv'

/-- Python `str.split` always returns at least one field, so the
`len(result.stdout.split(",")) == 0` guard in `detect_architecture`
(validate_dynamic_deps.py:41) can never fire. -/
theorem pySplitComma_length_ne_zero (s : String) :
    (pySplitComma s).length ≠ 0 := by
  unfold pySplitComma
  cases s with
  | mk data =>
    cases data with
    | nil => simp [splitComma]
    | cons c rest =>
      simp only [splitComma]
      cases h : splitComma rest with
      | nil =>
        exfalso
        have hne : (splitComma rest).length ≠ 0 := by
          clear h
          induction rest with
          | nil => simp [splitComma]
          | cons d tail ih =>
            simp only [splitComma]
            cases h2 : splitComma tail with
            | nil =>
              exact absurd (show (splitComma tail).length = 0 by simp [h2])
                ih
            | cons s ss =>
              by_cases hd : d = ','
              · simp [hd]
              · simp [hd]
        rw [h] at hne
        exact hne rfl
      | cons s ss =>
        by_cases hc : c = ','
        · simp [hc]
        · simp [hc]

/-- C1: the claim says `detect_architecture` returns an explicit
empty/unknown value for paths not referencing a valid binary.  In fact the
`len(split) == 0` guard is unreachable (Python `str.split(",")` always
yields at least one field — see `pySplitComma_length_ne_zero`), so on
`file` output without a comma — exactly what `file` prints for a missing
or unrecognized file — the function raises `IndexError` (modelled as
`none`) instead of returning `""`.  The first conjunct evaluates the
failing input, the second records that its output is a single comma-free
field (so the subscript `[1]` is out of range while the `== 0` guard
fails), and the third shows normal ELF output still parses. -/
theorem C1_detect_architecture_raises_on_invalid_binary :
    detect_architecture "x: cannot open 'x' (No such file or directory)\n" =
      none ∧
    (pySplitComma
      "x: cannot open 'x' (No such file or directory)\n").length = 1 ∧
    detect_architecture
      "d: ELF 64-bit LSB executable, x86-64, version 1 (SYSV)" =
        some "x86-64" := by
  refine ⟨by decide, by decide, by decide⟩

/-- C2 counterexample: the claim says `seen`, `missing`, `wrong_arch` are
pairwise disjoint, in particular that no name in `missing` is in `seen`.
On a run whose single dependency is absent, the name is inserted into
`seen` (validate_dynamic_deps.py:124) before being recorded in `missing`
(validate_dynamic_deps.py:129), so it ends up in both. -/
theorem C2_counterexample_missing_inside_seen :
    "libfoo.so" ∈
      (walk ⟨fun _ => [], fun _ => false, id, fun _ => "", fun _ => []⟩
        "ELF" popLast 1 ⟨["libfoo.so"], [], [], []⟩).seen ∧
    "libfoo.so" ∈
      (walk ⟨fun _ => [], fun _ => false, id, fun _ => "", fun _ => []⟩
        "ELF" popLast 1 ⟨["libfoo.so"], [], [], []⟩).missing := by
  decide

/-- C2 (amended): `missing` is contained in `seen` at every step of the
walk (every name is added to `seen` when popped, before its missing check),
so `seen` and `missing` are not disjoint whenever `missing` is non-empty;
`wrong_arch` is keyed by resolved paths, not names. -/
theorem C2_missing_subset_seen (env : Env) (A : String)
    (pick : List String → Option (String × List String)) (fuel : Nat)
    (init : List String) (n : String)
    (hn : n ∈ (walk env A pick fuel ⟨init, [], [], []⟩).missing) :
    n ∈ (walk env A pick fuel ⟨init, [], [], []⟩).seen :=
  walk_missing_subset_seen env A pick fuel ⟨init, [], [], []⟩
    (fun m hm => absurd hm (List.not_mem_nil m)) n hn

theorem C2_missing_subset_seen_witness :
    "libfoo.so" ∈
      (walk ⟨fun _ => [], fun _ => false, id, fun _ => "", fun _ => []⟩
        "ELF" popLast 1 ⟨["libfoo.so"], [], [], []⟩).seen :=
  C2_missing_subset_seen
    ⟨fun _ => [], fun _ => false, id, fun _ => "", fun _ => []⟩
    "ELF" popLast 1 ["libfoo.so"] "libfoo.so" (by decide)

/-- C3 counterexample: the claim says the extraction directory is removed
exactly when the run succeeds (exit code 0) and cleanup is not opted out.
A completed run with a missing dependency exits with code 1, yet with
`clean = true` the directory is still removed
(validate_dynamic_deps.py:169-170 runs before `sys.exit`, unconditionally
on the exit code). -/
theorem C3_counterexample_cleanup_despite_failure :
    (runMain ⟨fun _ => [], fun _ => false, id, fun _ => "", fun _ => []⟩
      "ELF" ["libfoo.so"] true 1).walk_done = true ∧
    (runMain ⟨fun _ => [], fun _ => false, id, fun _ => "", fun _ => []⟩
      "ELF" ["libfoo.so"] true 1).exit_code = 1 ∧
    (runMain ⟨fun _ => [], fun _ => false, id, fun _ => "", fun _ => []⟩
      "ELF" ["libfoo.so"] true 1).cleaned = true := by
  decide

/-- C3 (amended): the extraction directory is removed exactly when the
caller has not opted out of cleanup, independently of the exit code —
failing runs are cleaned up too. -/
theorem C3_cleanup_iff_not_opted_out (env : Env) (A : String)
    (init : List String) (clean : Bool) (fuel : Nat) :
    (runMain env A init clean fuel).cleaned = clean :=
  rfl

theorem resolve_container_link_abs (fs : FsEnv) (root link target : PyPath)
    (hread : fs.readlink link = target) (habs : target.isAbs = true) :
    resolve_container_link fs root link =
      .ok ⟨root.isAbs, root.parts ++ target.parts⟩ := by
  unfold resolve_container_link
  rw [hread]
  simp only [habs, if_pos]
  unfold PyPath.joinpath relative_to_root
  simp

/-- C4: an absolute symlink target is reinterpreted relative to the
extraction root: the result is the root's components followed by the
target's components (i.e. `R/a/b/lib.so`), and — for any non-trivial
root — never the host path itself. -/
theorem C4_absolute_link_target_rerooted (fs : FsEnv)
    (root link target : PyPath) (hread : fs.readlink link = target)
    (habs : target.isAbs = true) :
    resolve_container_link fs root link =
      .ok ⟨root.isAbs, root.parts ++ target.parts⟩ ∧
    (root.parts ≠ [] →
      resolve_container_link fs root link ≠ .ok target) := by
  have h1 := resolve_container_link_abs fs root link target hread habs
  refine ⟨h1, fun hne hcontra => ?_⟩
  rw [h1] at hcontra
  have h2 : (⟨root.isAbs, root.parts ++ target.parts⟩ : PyPath) = target := by
    injection hcontra
  have h3 : root.parts ++ target.parts = target.parts :=
    congrArg PyPath.parts h2
  have h4 := congrArg List.length h3
  rw [List.length_append] at h4
  exact hne (List.length_eq_zero.1 (by omega))

theorem C4_absolute_link_target_rerooted_witness :
    resolve_container_link ⟨fun _ => ⟨true, ["a", "b", "lib.so"]⟩, id⟩
        ⟨false, [".test-images", "img"]⟩
        ⟨false, [".test-images", "img", "usr", "liblink.so"]⟩ =
      .ok ⟨false, [".test-images", "img", "a", "b", "lib.so"]⟩ ∧
    resolve_container_link ⟨fun _ => ⟨true, ["a", "b", "lib.so"]⟩, id⟩
        ⟨false, [".test-images", "img"]⟩
        ⟨false, [".test-images", "img", "usr", "liblink.so"]⟩ ≠
      .ok ⟨true, ["a", "b", "lib.so"]⟩ := by
  have h := C4_absolute_link_target_rerooted
    ⟨fun _ => ⟨true, ["a", "b", "lib.so"]⟩, id⟩
    ⟨false, [".test-images", "img"]⟩
    ⟨false, [".test-images", "img", "usr", "liblink.so"]⟩
    ⟨true, ["a", "b", "lib.so"]⟩ rfl rfl
  exact ⟨h.1, h.2 (by decide)⟩

/-- C7 counterexample: the claim says the resolver never returns a path
denoting a location outside the extraction root.  The code does not
normalize `..` segments: an absolute link target `/a/../../x` under root
`r/s` is returned as `r/s/a/../../x`, which denotes `r/x` — outside the
root `r/s`. -/
theorem C7_counterexample_dotdot_escapes_root :
    resolve_container_link
        ⟨fun _ => ⟨true, ["a", "..", "..", "x"]⟩, fun p => p⟩
        ⟨false, ["r", "s"]⟩ ⟨false, ["r", "s", "lib", "libevil.so"]⟩ =
      .ok ⟨false, ["r", "s", "a", "..", "..", "x"]⟩ ∧
    ¬ withinRoot ⟨false, ["r", "s"]⟩
        ⟨false, ["r", "s", "a", "..", "..", "x"]⟩ := by
  exact ⟨rfl, by decide⟩

/-- C7 (amended): containment holds only in the absence of `..` segments:
for an absolute link target with no `..` component (under a root with no
`..` component) the re-rooted result lies within the extraction root, and
for a relative target whose host resolution does not sit under the root
the resolver raises `ValueError` rather than returning that host location;
but an absolute target containing `..` segments can produce a result
denoting a location outside the root (see the counterexample). -/
theorem C7_containment_without_dotdot (fs : FsEnv)
    (root link target : PyPath) (hread : fs.readlink link = target)
    (hroot : ".." ∉ root.parts) :
    (target.isAbs = true → ".." ∉ target.parts →
      ∃ res, resolve_container_link fs root link = .ok res ∧
        withinRoot root res) ∧
    (target.isAbs = false →
      ¬ ((fs.hostResolve link).isAbs = (fs.hostResolve root).isAbs ∧
        (fs.hostResolve link).parts.take
          (fs.hostResolve root).parts.length =
            (fs.hostResolve root).parts) →
      resolve_container_link fs root link = .error ()) := by
  constructor
  · intro habs htgt
    refine ⟨⟨root.isAbs, root.parts ++ target.parts⟩,
      resolve_container_link_abs fs root link target hread habs, ?_, ?_⟩
    · rfl
    · have hcat : ".." ∉ root.parts ++ target.parts := by
        intro h
        rcases List.mem_append.1 h with h1 | h1
        · exact hroot h1
        · exact htgt h1
      rw [normalizeParts_no_dotdot _ hcat, normalizeParts_no_dotdot _ hroot]
      exact List.take_left root.parts target.parts
  · intro habs hnot
    unfold resolve_container_link
    rw [hread]
    simp only [habs, Bool.false_eq_true, if_neg, not_false_iff]
    unfold PyPath.relative_to
    rw [if_neg hnot]

theorem C7_containment_without_dotdot_witness :
    (∃ res, resolve_container_link
        ⟨fun _ => ⟨true, ["lib", "libc.so.6"]⟩, id⟩
        ⟨false, ["r", "s"]⟩ ⟨false, ["r", "s", "lib", "liblink.so"]⟩ =
          .ok res ∧
      withinRoot ⟨false, ["r", "s"]⟩ res) := by
  have h := C7_containment_without_dotdot
    ⟨fun _ => ⟨true, ["lib", "libc.so.6"]⟩, id⟩
    ⟨false, ["r", "s"]⟩ ⟨false, ["r", "s", "lib", "liblink.so"]⟩
    ⟨true, ["lib", "libc.so.6"]⟩ rfl (by decide)
  exact h.1 rfl (by decide)

/-- C5: missing and architecture-mismatched dependencies are terminal.
A popped unseen name with no candidate files is recorded in `missing` and
the queue is exactly the remaining entries (nothing is enqueued, so no
name reachable only through it can ever enter `seen`); a candidate path
whose architecture differs from the target's is recorded in `wrong_arch`
under its probed (symlink-resolved) path and contributes no NEEDED names
to the queue. -/
theorem C5_missing_and_mismatched_terminal (env : Env) (A : String)
    (st : WalkState) (current : String) (rest : List String)
    (wa : List (PyPath × String)) (p : PyPath) (paths : List PyPath)
    (hpop : popLast st.deps = some (current, rest))
    (hseen : current ∉ st.seen)
    (hmis : env.arch (env.probePath p) ≠ A) :
    (env.find current = [] →
      current ∈ (loopIter env A popLast st).missing ∧
      (loopIter env A popLast st).deps = rest) ∧
    (env.probePath p ∈ dictKeys (processDepPaths env A wa (p :: paths)).1 ∧
      (processDepPaths env A wa (p :: paths)).2 =
        (processDepPaths env A wa paths).2) := by
  refine ⟨fun hf => ?_, ?_, ?_⟩
  · have he : loopIter env A popLast st =
        { deps := rest, seen := st.seen.insert current,
          missing := st.missing.insert current,
          wrong_arch := st.wrong_arch } := by
      unfold loopIter
      rw [hpop]
      simp [hseen, hf]
    rw [he]
    exact ⟨List.mem_insert_self _ _, rfl⟩
  · exact processDepPaths_keys_covers env A (p :: paths) wa p
      (List.mem_cons_self p paths) hmis
  · rw [processDepPaths_snd_eq, processDepPaths_snd_eq]
    simp [hmis]

theorem C5_missing_and_mismatched_terminal_witness :
    ("libz.so" ∈
      (loopIter ⟨fun _ => [], fun _ => false, id, fun _ => "armhf",
          fun _ => []⟩ "x86-64" popLast
        ⟨["libz.so"], [], [], []⟩).missing ∧
      (loopIter ⟨fun _ => [], fun _ => false, id, fun _ => "armhf",
          fun _ => []⟩ "x86-64" popLast
        ⟨["libz.so"], [], [], []⟩).deps = []) ∧
    ((⟨false, ["lib", "libbad.so"]⟩ : PyPath) ∈
      dictKeys (processDepPaths
        ⟨fun _ => [], fun _ => false, id, fun _ => "armhf", fun _ => []⟩
        "x86-64" [] [⟨false, ["lib", "libbad.so"]⟩]).1 ∧
      (processDepPaths
        ⟨fun _ => [], fun _ => false, id, fun _ => "armhf", fun _ => []⟩
        "x86-64" [] [⟨false, ["lib", "libbad.so"]⟩]).2 =
      (processDepPaths
        ⟨fun _ => [], fun _ => false, id, fun _ => "armhf", fun _ => []⟩
        "x86-64" [] []).2) := by
  have h := C5_missing_and_mismatched_terminal
    ⟨fun _ => [], fun _ => false, id, fun _ => "armhf", fun _ => []⟩
    "x86-64" ⟨["libz.so"], [], [], []⟩ "libz.so" [] []
    ⟨false, ["lib", "libbad.so"]⟩ [] (by decide) (by decide) (by decide)
  exact ⟨h.1 rfl, h.2⟩

/-- C8: the final `seen`, `missing` and `wrong_arch` of any two terminated
walks over the same metadata agree (as sets/mappings) regardless of the
work-queue discipline — LIFO (the source's `deps.pop()`), FIFO, or any
other valid pick. -/
theorem C8_final_state_discipline_independent (env : Env) (A : String)
    (init : List String)
    (pickA pickB : List String → Option (String × List String))
    (fuelA fuelB : Nat) (hA : ValidPick pickA) (hB : ValidPick pickB)
    (hdoneA : (walk env A pickA fuelA ⟨init, [], [], []⟩).deps = [])
    (hdoneB : (walk env A pickB fuelB ⟨init, [], [], []⟩).deps = []) :
    (∀ n, n ∈ (walk env A pickA fuelA ⟨init, [], [], []⟩).seen ↔
        n ∈ (walk env A pickB fuelB ⟨init, [], [], []⟩).seen) ∧
    (∀ n, n ∈ (walk env A pickA fuelA ⟨init, [], [], []⟩).missing ↔
        n ∈ (walk env A pickB fuelB ⟨init, [], [], []⟩).missing) ∧
    (∀ kv, kv ∈ (walk env A pickA fuelA ⟨init, [], [], []⟩).wrong_arch ↔
        kv ∈ (walk env A pickB fuelB ⟨init, [], [], []⟩).wrong_arch) := by
  obtain ⟨hsA, hmA, hwA⟩ :=
    walk_characterization env A init pickA hA fuelA hdoneA
  obtain ⟨hsB, hmB, hwB⟩ :=
    walk_characterization env A init pickB hB fuelB hdoneB
  exact ⟨fun n => (hsA n).trans (hsB n).symm,
    fun n => (hmA n).trans (hmB n).symm,
    fun kv => (hwA kv).trans (hwB kv).symm⟩

theorem C8_final_state_discipline_independent_witness :
    ("libc.so.6" ∈
      (walk ⟨fun n => if n = "liba.so" then [⟨false, ["pa"]⟩] else
            if n = "libb.so" then [⟨false, ["pb"]⟩] else [],
          fun _ => false, id, fun _ => "x86-64",
          fun p => if p = ⟨false, ["pa"]⟩ then ["libc.so.6"] else []⟩
        "x86-64" popLast 4 ⟨["liba.so", "libb.so"], [], [], []⟩).seen ↔
      "libc.so.6" ∈
      (walk ⟨fun n => if n = "liba.so" then [⟨false, ["pa"]⟩] else
            if n = "libb.so" then [⟨false, ["pb"]⟩] else [],
          fun _ => false, id, fun _ => "x86-64",
          fun p => if p = ⟨false, ["pa"]⟩ then ["libc.so.6"] else []⟩
        "x86-64" popFirst 4 ⟨["liba.so", "libb.so"], [], [], []⟩).seen) := by
  have h := C8_final_state_discipline_independent
    ⟨fun n => if n = "liba.so" then [⟨false, ["pa"]⟩] else
        if n = "libb.so" then [⟨false, ["pb"]⟩] else [],
      fun _ => false, id, fun _ => "x86-64",
      fun p => if p = ⟨false, ["pa"]⟩ then ["libc.so.6"] else []⟩
    "x86-64" ["liba.so", "libb.so"] popLast popFirst 4 4
    popLast_valid popFirst_valid (by decide) (by decide)
  exact h.1 "libc.so.6"

/-- C9: when only finitely many files can back the dependency names (each
with its finite NEEDED list), the closure-walk loop drains its queue: some
fuel suffices to reach the empty queue.  Termination holds because `seen`
grows monotonically inside the finite name universe spanned by the initial
names and the files' NEEDED entries. -/
theorem C9_walk_terminates (env : Env) (A : String) (init : List String)
    (files : List PyPath)
    (hfind : ∀ (n : String) (p : PyPath), p ∈ env.find n → p ∈ files) :
    ∃ fuel, (walk env A popLast fuel ⟨init, [], [], []⟩).deps = [] := by
  have hclosed : ∀ (n m : String), m ∈ expandNames env A n →
      m ∈ init ++ (files.map fun p => env.needed (env.probePath p)).flatten
      := by
    intro n m hm
    unfold expandNames at hm
    rcases List.mem_flatten.1 hm with ⟨l, hl, hml⟩
    rcases List.mem_map.1 hl with ⟨p, hp, hpl⟩
    have hml2 : m ∈ env.needed (env.probePath p) := by
      by_cases harch : env.arch (env.probePath p) = A
      · rw [← hpl, if_pos harch] at hml
        exact hml
      · rw [← hpl, if_neg harch] at hml
        exact absurd hml (List.not_mem_nil m)
    exact List.mem_append_right _ (List.mem_flatten.2
      ⟨env.needed (env.probePath p),
        List.mem_map.2 ⟨p, hfind n p hp, rfl⟩, hml2⟩)
  exact walk_terminates_aux env A
    (init ++ (files.map fun p => env.needed (env.probePath p)).flatten)
    hclosed
    ((init ++
      (files.map fun p => env.needed (env.probePath p)).flatten).filter
        fun x => decide (x ∉ ([] : List String))).length
    init.length ⟨init, [], [], []⟩
    (fun n hn => List.mem_append_left _ hn) le_rfl le_rfl

theorem C9_walk_terminates_witness :
    ∃ fuel, (walk ⟨fun _ => [], fun _ => false, id, fun _ => "",
        fun _ => []⟩
      "ELF" popLast fuel ⟨["liba.so"], [], [], []⟩).deps = [] :=
  C9_walk_terminates
    ⟨fun _ => [], fun _ => false, id, fun _ => "", fun _ => []⟩
    "ELF" ["liba.so"] []
    (fun _ p hp => absurd hp (List.not_mem_nil p))

/-- C10: classification is per candidate path.  When a popped unseen name
has both a mismatching candidate `p` and a matching candidate `q`, the
iteration records the name in `seen`, records `p`'s probed path as a
`wrong_arch` key, enqueues `q`'s NEEDED entries, and every continuation of
the walk exits with code 1 (the `wrong_arch` entry is never removed). -/
theorem C10_mixed_candidates_per_path (env : Env) (A : String)
    (st : WalkState) (current : String) (rest : List String)
    (p q : PyPath)
    (hpop : popLast st.deps = some (current, rest))
    (hseen : current ∉ st.seen)
    (hp : p ∈ env.find current) (hq : q ∈ env.find current)
    (hpm : env.arch (env.probePath p) ≠ A)
    (hqm : env.arch (env.probePath q) = A) :
    current ∈ (loopIter env A popLast st).seen ∧
    env.probePath p ∈ dictKeys (loopIter env A popLast st).wrong_arch ∧
    (∀ m ∈ env.needed (env.probePath q),
      m ∈ (loopIter env A popLast st).deps) ∧
    (∀ fuel : Nat,
      exitCode (walk env A popLast fuel (loopIter env A popLast st)) = 1)
      := by
  have hfne : env.find current ≠ [] := by
    intro h
    rw [h] at hp
    exact absurd hp (List.not_mem_nil p)
  have he : loopIter env A popLast st =
      { deps := rest ++
          (processDepPaths env A st.wrong_arch (env.find current)).2,
        seen := st.seen.insert current,
        missing := st.missing,
        wrong_arch :=
          (processDepPaths env A st.wrong_arch (env.find current)).1 } := by
    unfold loopIter
    rw [hpop]
    simp [hseen, hfne]
  rw [he]
  refine ⟨List.mem_insert_self _ _, ?_, ?_, ?_⟩
  · exact processDepPaths_keys_covers env A _ _ p hp hpm
  · intro m hm
    refine List.mem_append_right _ ?_
    rw [processDepPaths_snd_find]
    exact List.mem_flatten.2 ⟨env.needed (env.probePath q),
      List.mem_map.2 ⟨q, hq, by simp [hqm]⟩, hm⟩
  · intro fuel
    have hkey := walk_keys_mono env A popLast fuel
      { deps := rest ++
          (processDepPaths env A st.wrong_arch (env.find current)).2,
        seen := st.seen.insert current,
        missing := st.missing,
        wrong_arch :=
          (processDepPaths env A st.wrong_arch (env.find current)).1 }
      (env.probePath p)
      (processDepPaths_keys_covers env A _ _ p hp hpm)
    have hne : (walk env A popLast fuel
        { deps := rest ++
            (processDepPaths env A st.wrong_arch (env.find current)).2,
          seen := st.seen.insert current,
          missing := st.missing,
          wrong_arch :=
            (processDepPaths env A st.wrong_arch
              (env.find current)).1 }).wrong_arch ≠ [] := by
      intro hcontra
      rw [hcontra] at hkey
      simp [dictKeys] at hkey
    unfold exitCode
    simp [hne]

theorem C10_mixed_candidates_per_path_witness :
    "liba.so" ∈
      (loopIter ⟨fun n => if n = "liba.so" then
            [⟨false, ["p1"]⟩, ⟨false, ["p2"]⟩] else [],
          fun _ => false, id,
          fun p => if p = ⟨false, ["p2"]⟩ then "x86-64" else "armhf",
          fun _ => ["libc.so.6"]⟩ "x86-64" popLast
        ⟨["liba.so"], [], [], []⟩).seen ∧
    (⟨false, ["p1"]⟩ : PyPath) ∈
      dictKeys (loopIter ⟨fun n => if n = "liba.so" then
            [⟨false, ["p1"]⟩, ⟨false, ["p2"]⟩] else [],
          fun _ => false, id,
          fun p => if p = ⟨false, ["p2"]⟩ then "x86-64" else "armhf",
          fun _ => ["libc.so.6"]⟩ "x86-64" popLast
        ⟨["liba.so"], [], [], []⟩).wrong_arch ∧
    "libc.so.6" ∈
      (loopIter ⟨fun n => if n = "liba.so" then
            [⟨false, ["p1"]⟩, ⟨false, ["p2"]⟩] else [],
          fun _ => false, id,
          fun p => if p = ⟨false, ["p2"]⟩ then "x86-64" else "armhf",
          fun _ => ["libc.so.6"]⟩ "x86-64" popLast
        ⟨["liba.so"], [], [], []⟩).deps ∧
    exitCode (walk ⟨fun n => if n = "liba.so" then
          [⟨false, ["p1"]⟩, ⟨false, ["p2"]⟩] else [],
        fun _ => false, id,
        fun p => if p = ⟨false, ["p2"]⟩ then "x86-64" else "armhf",
        fun _ => ["libc.so.6"]⟩ "x86-64" popLast 2
      (loopIter ⟨fun n => if n = "liba.so" then
            [⟨false, ["p1"]⟩, ⟨false, ["p2"]⟩] else [],
          fun _ => false, id,
          fun p => if p = ⟨false, ["p2"]⟩ then "x86-64" else "armhf",
          fun _ => ["libc.so.6"]⟩ "x86-64" popLast
        ⟨["liba.so"], [], [], []⟩)) = 1 := by
  have h := C10_mixed_candidates_per_path
    ⟨fun n => if n = "liba.so" then
        [⟨false, ["p1"]⟩, ⟨false, ["p2"]⟩] else [],
      fun _ => false, id,
      fun p => if p = ⟨false, ["p2"]⟩ then "x86-64" else "armhf",
      fun _ => ["libc.so.6"]⟩
    "x86-64" ⟨["liba.so"], [], [], []⟩ "liba.so" []
    ⟨false, ["p1"]⟩ ⟨false, ["p2"]⟩
    (by decide) (by decide) (by decide) (by decide) (by decide) (by decide)
  exact ⟨h.1, h.2.1, h.2.2.1 "libc.so.6" (by decide), h.2.2.2 2⟩

/-- C6: on a completed walk the process exit code is 0 exactly when both
the final `missing` set and the final `wrong_arch` mapping are empty, and
1 exactly when at least one of them is non-empty. -/
theorem C6_exit_code_verdict (env : Env) (A : String) (init : List String)
    (clean : Bool) (fuel : Nat)
    (_hdone : (runMain env A init clean fuel).walk_done = true) :
    ((runMain env A init clean fuel).exit_code = 0 ↔
      (runMain env A init clean fuel).missing = [] ∧
        (runMain env A init clean fuel).wrong_arch = []) ∧
    ((runMain env A init clean fuel).exit_code = 1 ↔
      ((runMain env A init clean fuel).missing ≠ [] ∨
        (runMain env A init clean fuel).wrong_arch ≠ [])) := by
  unfold runMain exitCode
  dsimp only
  by_cases h1 :
      (walk env A popLast fuel ⟨init, [], [], []⟩).wrong_arch = [] <;>
    by_cases h2 :
        (walk env A popLast fuel ⟨init, [], [], []⟩).missing = [] <;>
      simp [h1, h2]

theorem C6_exit_code_verdict_witness :
    ((runMain
        ⟨fun n => if n = "libc.so.6" then [⟨false, ["lib", "libc.so.6"]⟩]
          else [], fun _ => false, id, fun _ => "x86-64", fun _ => []⟩
        "x86-64" ["libc.so.6"] true 2).exit_code = 0 ↔
      (runMain
        ⟨fun n => if n = "libc.so.6" then [⟨false, ["lib", "libc.so.6"]⟩]
          else [], fun _ => false, id, fun _ => "x86-64", fun _ => []⟩
        "x86-64" ["libc.so.6"] true 2).missing = [] ∧
        (runMain
          ⟨fun n => if n = "libc.so.6" then [⟨false, ["lib", "libc.so.6"]⟩]
            else [], fun _ => false, id, fun _ => "x86-64", fun _ => []⟩
          "x86-64" ["libc.so.6"] true 2).wrong_arch = []) ∧
    ((runMain
        ⟨fun n => if n = "libc.so.6" then [⟨false, ["lib", "libc.so.6"]⟩]
          else [], fun _ => false, id, fun _ => "x86-64", fun _ => []⟩
        "x86-64" ["libc.so.6"] true 2).exit_code = 1 ↔
      ((runMain
          ⟨fun n => if n = "libc.so.6" then [⟨false, ["lib", "libc.so.6"]⟩]
            else [], fun _ => false, id, fun _ => "x86-64", fun _ => []⟩
          "x86-64" ["libc.so.6"] true 2).missing ≠ [] ∨
        (runMain
          ⟨fun n => if n = "libc.so.6" then [⟨false, ["lib", "libc.so.6"]⟩]
            else [], fun _ => false, id, fun _ => "x86-64", fun _ => []⟩
          "x86-64" ["libc.so.6"] true 2).wrong_arch ≠ [])) :=
  C6_exit_code_verdict
    ⟨fun n => if n = "libc.so.6" then [⟨false, ["lib", "libc.so.6"]⟩]
      else [], fun _ => false, id, fun _ => "x86-64", fun _ => []⟩
    "x86-64" ["libc.so.6"] true 2 (by decide)

end ValidateDeps
